import Mathlib

/-!
Verification of the OS_YEAR- concurrency toolkit against its specification.

The development shallowly embeds the three Python modules as labelled
transition systems:

* `Relay` embeds src/Problem2.py: three worker loops chained through the
  binary semaphores a, b, c.
* `PairBuffer` embeds src/Problem1.py: a 100-slot bounded buffer with
  counting semaphores `space`/`full`, a mutex, three producers and one
  consumer.
* `Transfer` embeds src/deadlock_simlation.py: two accounts with binary
  semaphore locks, the unordered `transfer` and the min/max ordered
  `transfer_ordered`, each driven by the two threads the module starts.

Every semaphore is a natural-number permit count; `acquire` is enabled only
when the count is positive (a blocked thread simply has no enabled step) and
decrements it, `release` increments it.  Program counters record each
thread's position in the straight-line body of its loop.
-/

namespace OSYear

/-! ## Relay: embedding of src/Problem2.py

The module declares `a = Semaphore(1)`, `b = Semaphore(0)`, `c = Semaphore(0)`
and three processes looping forever:

* `process1`: `a.acquire()`, `print("H")`, `print("E")`, `b.release()`
* `process2`: `b.acquire()`, `print("L")`, `print("L")`, `c.release()`
* `process3`: `c.acquire()`, `print("O")`

Each loop body is a list of atomic operations; a process's program counter
walks its body cyclically.  The state also counts, per semaphore, how many
acquire operations have completed: the acquire count of `a` is the number of
times Stage0's body has begun executing. -/

/-- The three semaphores of src/Problem2.py: `a`, `b`, `c`. -/
inductive RSem : Type
  | A
  | B
  | C
deriving DecidableEq

/-- One atomic operation of a relay process body. -/
inductive ROp : Type
  | acquire (x : RSem)
  | release (x : RSem)
  | emit (ch : Char)
deriving DecidableEq

/-- Body of `process1` (src/Problem2.py lines 10-14). -/
def body1 : List ROp := [.acquire .A, .emit 'H', .emit 'E', .release .B]

/-- Body of `process2` (src/Problem2.py lines 16-20). -/
def body2 : List ROp := [.acquire .B, .emit 'L', .emit 'L', .release .C]

/-- Body of `process3` (src/Problem2.py lines 22-24): it acquires `c` and
prints, but releases no semaphore. -/
def body3 : List ROp := [.acquire .C, .emit 'O']

/-- State of the relay system: the semaphore counts, how often each semaphore
has been acquired, the emitted output, and the three program counters. -/
structure RState : Type where
  sem : RSem → Nat
  acq : RSem → Nat
  out : List Char
  pc1 : Nat
  pc2 : Nat
  pc3 : Nat

/-- Execute one relay operation: a blocked acquire yields `none`. -/
def rexec (op : ROp) (s : RState) : Option RState :=
  match op with
  | .acquire x =>
      if s.sem x = 0 then none
      else some { s with
        sem := Function.update s.sem x (s.sem x - 1),
        acq := Function.update s.acq x (s.acq x + 1) }
  | .release x => some { s with sem := Function.update s.sem x (s.sem x + 1) }
  | .emit ch => some { s with out := s.out ++ [ch] }

/-- One step of a process with the given loop body: run the operation at the
program counter and advance it cyclically. -/
def procStep (body : List ROp) (pc : Nat) (s : RState) : Option (RState × Nat) :=
  match body.get? pc with
  | some op => (rexec op s).map (fun s' => (s', (pc + 1) % body.length))
  | none => none

/-- Interleaving semantics: any of the three processes may step. -/
inductive RStep : RState → RState → Prop
  | p1 {s u pc'} : procStep body1 s.pc1 s = some (u, pc') → RStep s { u with pc1 := pc' }
  | p2 {s u pc'} : procStep body2 s.pc2 s = some (u, pc') → RStep s { u with pc2 := pc' }
  | p3 {s u pc'} : procStep body3 s.pc3 s = some (u, pc') → RStep s { u with pc3 := pc' }

/-- Initial semaphore counts of src/Problem2.py: `a = 1`, `b = 0`, `c = 0`. -/
def rsem0 : RSem → Nat
  | .A => 1
  | .B => 0
  | .C => 0

/-- Initial relay state. -/
def RInit : RState :=
  { sem := rsem0, acq := fun _ => 0, out := [], pc1 := 0, pc2 := 0, pc3 := 0 }

/-- Reachable relay states. -/
inductive RReach : RState → Prop
  | init : RReach RInit
  | step {s t} : RReach s → RStep s t → RReach t

/-- Number of `print` calls in a relay body. -/
def emitCount (body : List ROp) : Nat :=
  (body.filter fun op => match op with | .emit _ => true | _ => false).length

/-! ## PairBuffer: embedding of src/Problem1.py

The module declares `BUFFER_SIZE = 100`, `buffer = []`,
`space = Semaphore(BUFFER_SIZE)`, `full = Semaphore(0)`, `lock = Semaphore(1)`
and starts three producer threads and one consumer thread.

A producer `pid` loops: `space.acquire()` twice, `lock.acquire()`, append
`P{pid}-A`, append `P{pid}-B`, `lock.release()`, `full.release()` twice.
The consumer loops: `full.acquire()` twice, `lock.acquire()`,
`buffer.pop(0)` twice, `lock.release()`, `space.release()` twice.
Python's `list.pop(0)` on an empty list raises `IndexError`, which kills the
thread; this is modelled by a `crashed` flag and a dead program counter. -/

/-- A buffer element: the producing thread's id and whether it is the second
element of its pair (`P{pid}-A` is `(pid, false)`, `P{pid}-B` is
`(pid, true)`). -/
abbrev Item : Type := Nat × Bool

/-- State of the buffer system: the three semaphore counts, the buffer
contents, the three producers' program counters, the consumer's program
counter, the element the consumer popped first in its current iteration, the
list of pairs returned by completed consume iterations, and whether the
consumer crashed. -/
structure BState : Type where
  space : Nat
  full : Nat
  lock : Nat
  buffer : List Item
  prodPc : Fin 3 → Nat
  consPc : Nat
  consGot : Option Item
  consumed : List (Item × Item)
  crashed : Bool

/-- One step of producer `i` (src/Problem1.py lines 14-29).  Program counter:
0/1 = the two `space.acquire()`, 2 = `lock.acquire()`, 3/4 = the two appends,
5 = `lock.release()`, 6/7 = the two `full.release()`, then back to 0. -/
def produceStep (i : Fin 3) (s : BState) : Option BState :=
  match s.prodPc i with
  | 0 => if s.space = 0 then none else
      some { s with space := s.space - 1, prodPc := Function.update s.prodPc i 1 }
  | 1 => if s.space = 0 then none else
      some { s with space := s.space - 1, prodPc := Function.update s.prodPc i 2 }
  | 2 => if s.lock = 0 then none else
      some { s with lock := s.lock - 1, prodPc := Function.update s.prodPc i 3 }
  | 3 => some { s with
                buffer := s.buffer ++ [(i.val, false)],
                prodPc := Function.update s.prodPc i 4 }
  | 4 => some { s with
                buffer := s.buffer ++ [(i.val, true)],
                prodPc := Function.update s.prodPc i 5 }
  | 5 => some { s with lock := s.lock + 1, prodPc := Function.update s.prodPc i 6 }
  | 6 => some { s with full := s.full + 1, prodPc := Function.update s.prodPc i 7 }
  | 7 => some { s with full := s.full + 1, prodPc := Function.update s.prodPc i 0 }
  | _ => none

/-- One step of the consumer (src/Problem1.py lines 30-43).  Program counter:
0/1 = the two `full.acquire()`, 2 = `lock.acquire()`, 3/4 = the two
`buffer.pop(0)` (popping an empty buffer raises, modelled by `crashed` and the
dead counter 8), 5 = `lock.release()`, 6/7 = the two `space.release()`. -/
def consumeStep (s : BState) : Option BState :=
  match s.consPc with
  | 0 => if s.full = 0 then none else
      some { s with full := s.full - 1, consPc := 1 }
  | 1 => if s.full = 0 then none else
      some { s with full := s.full - 1, consPc := 2 }
  | 2 => if s.lock = 0 then none else
      some { s with lock := s.lock - 1, consPc := 3 }
  | 3 =>
      match s.buffer with
      | [] => some { s with crashed := true, consPc := 8 }
      | x :: rest => some { s with buffer := rest, consGot := some x, consPc := 4 }
  | 4 =>
      match s.buffer with
      | [] => some { s with crashed := true, consPc := 8 }
      | y :: rest =>
          some { s with
                 buffer := rest,
                 consumed := s.consumed ++
                   (match s.consGot with | some x => [(x, y)] | none => []),
                 consGot := none, consPc := 5 }
  | 5 => some { s with lock := s.lock + 1, consPc := 6 }
  | 6 => some { s with space := s.space + 1, consPc := 7 }
  | 7 => some { s with space := s.space + 1, consPc := 0 }
  | _ => none

/-- Thread identity in the buffer system. -/
inductive BTid : Type
  | prod (i : Fin 3)
  | cons

/-- Interleaving semantics of the buffer system, labelled by the acting
thread. -/
inductive BStep : BTid → BState → BState → Prop
  | prod {i s t} : produceStep i s = some t → BStep (.prod i) s t
  | cons {s t} : consumeStep s = some t → BStep .cons s t

/-- Initial buffer state: 100 free-slot permits, 0 filled-slot permits, the
mutex free, the buffer empty, every thread at the top of its loop. -/
def BInit : BState :=
  { space := 100, full := 0, lock := 1, buffer := [], prodPc := fun _ => 0,
    consPc := 0, consGot := none, consumed := [], crashed := false }

/-- Reachable buffer states. -/
inductive BReach : BState → Prop
  | init : BReach BInit
  | step {who s t} : BReach s → BStep who s t → BReach t

/-- Free-slot permits a producer at this program counter has acquired but not
yet turned into buffer elements. -/
def pSpaceDebt : Nat → Nat
  | 1 => 1
  | 2 => 2
  | 3 => 2
  | 4 => 1
  | _ => 0

/-- Buffer elements the consumer at this program counter has removed without
yet releasing the matching free-slot permits. -/
def cSpaceDebt : Nat → Nat
  | 4 => 1
  | 5 => 2
  | 6 => 2
  | 7 => 1
  | _ => 0

/-- Elements a producer at this program counter has appended without yet
releasing the matching filled-slot permits. -/
def pFullDebt : Nat → Nat
  | 4 => 1
  | 5 => 2
  | 6 => 2
  | 7 => 1
  | _ => 0

/-- Filled-slot permits the consumer at this program counter has acquired for
elements still sitting in the buffer. -/
def cFullHeld : Nat → Nat
  | 1 => 1
  | 2 => 2
  | 3 => 2
  | 4 => 1
  | _ => 0

/-- 1 when a thread at this producer program counter holds the mutex. -/
def pInLock : Nat → Nat
  | 3 => 1
  | 4 => 1
  | 5 => 1
  | _ => 0

/-- 1 when the consumer at this program counter holds the mutex. -/
def cInLock : Nat → Nat
  | 3 => 1
  | 4 => 1
  | 5 => 1
  | _ => 0

/-- Whether a buffer-system thread holds the mutex. -/
def holdsLock : BTid → BState → Prop
  | .prod i, s => pInLock (s.prodPc i) = 1
  | .cons, s => cInLock s.consPc = 1

/-- The flattening of a list of producer ids into whole adjacent pairs. -/
def pairList : List Nat → List Item
  | [] => []
  | j :: ps => (j, false) :: (j, true) :: pairList ps

/-- Mutex accounting: the free permit plus the threads inside the critical
section always amount to exactly one. -/
def lockInv (s : BState) : Prop :=
  s.lock + (pInLock (s.prodPc 0) + pInLock (s.prodPc 1) + pInLock (s.prodPc 2))
    + cInLock s.consPc = 1

/-- Free-slot accounting: permits, occupancy and in-flight debts always sum to
the capacity 100. -/
def spaceInv (s : BState) : Prop :=
  s.space + s.buffer.length
    + (pSpaceDebt (s.prodPc 0) + pSpaceDebt (s.prodPc 1) + pSpaceDebt (s.prodPc 2))
    + cSpaceDebt s.consPc = 100

/-- Filled-slot accounting: the occupancy equals the filled permits plus the
producers' unreleased appends plus the consumer's holdings. -/
def fullInv (s : BState) : Prop :=
  s.buffer.length = s.full
    + (pFullDebt (s.prodPc 0) + pFullDebt (s.prodPc 1) + pFullDebt (s.prodPc 2))
    + cFullHeld s.consPc

/-- Shape of the buffer: whole pairs, possibly with a producer's first element
dangling at the end (that producer is mid-append) or a pair's second element
dangling at the front (the consumer is mid-pop and already took the first). -/
def shapeInv (s : BState) : Prop :=
  ((∀ i, s.prodPc i ≠ 4) ∧ s.consPc ≠ 4 ∧ ∃ ps, s.buffer = pairList ps)
  ∨ (∃ i, s.prodPc i = 4 ∧ ∃ ps, s.buffer = pairList ps ++ [(i.val, false)])
  ∨ (s.consPc = 4 ∧ ∃ j ps, s.consGot = some (j, false)
      ∧ s.buffer = (j, true) :: pairList ps)

/-- Every pair a consume iteration has returned is the A-then-B pair of a
single producer. -/
def consumedInv (s : BState) : Prop :=
  ∀ p ∈ s.consumed, ∃ j, p = ((j, false), (j, true))

/-- The inductive invariant of the buffer system. -/
def BInv (s : BState) : Prop :=
  lockInv s ∧ spaceInv s ∧ fullInv s ∧ shapeInv s ∧ consumedInv s
    ∧ s.crashed = false

/-! ## Transfer: embedding of src/deadlock_simlation.py

The module creates `account1 = Account("Account1", 1000)` and
`account2 = Account("Account2", 1000)`, each with a binary semaphore lock.
`transfer` acquires the source lock, then the destination lock, performs the
guarded mutation, and releases destination then source.  `transfer_ordered`
extracts the numeric ids, acquires the min-id lock then the max-id lock,
performs the same guarded mutation with the original from/to roles, and
releases max then min.  The drivers `main` and `main_ordered` run two threads:
thread-1 transfers 100 from account 1 to account 2, thread-2 transfers 50
from account 2 to account 1, from balances 1000/1000. -/

/-- One atomic operation of a transfer: a lock acquire or release on the
account with the given numeric id, or the guarded balance mutation. -/
inductive AOp : Type
  | acquire (i : Nat)
  | release (i : Nat)
  | mutate
deriving DecidableEq

/-- Outcome reported by the guarded mutation (printed, never raised). -/
inductive Outcome : Type
  | success
  | insufficientFunds
deriving DecidableEq

/-- The guarded mutation both `transfer` (src/deadlock_simlation.py lines
44-53) and `transfer_ordered` (lines 102-111) perform on the two endpoint
balances while holding both locks: when the source balance covers the amount,
move it and report success; otherwise leave both balances unchanged and
report insufficient funds.  The driver's two accounts are distinct objects. -/
def guardedMutation (fromBal toBal amount : Int) : (Int × Int) × Outcome :=
  if fromBal ≥ amount then ((fromBal - amount, toBal + amount), .success)
  else ((fromBal, toBal), .insufficientFunds)

/-- Operation sequence of `transfer(from, to, ...)` (lines 22-60): acquire
source, acquire destination, mutate, release destination, release source. -/
def transferOps (fromId toId : Nat) : List AOp :=
  [.acquire fromId, .acquire toId, .mutate, .release toId, .release fromId]

/-- Operation sequence of `transfer_ordered(from, to, ...)` (lines 64-119):
with `a` the smaller and `b` the larger numeric id, acquire `a`, acquire `b`,
mutate, release `b`, release `a`. -/
def transferOrderedOps (fromId toId : Nat) : List AOp :=
  let a := if fromId < toId then fromId else toId
  let b := if fromId < toId then toId else fromId
  [.acquire a, .acquire b, .mutate, .release b, .release a]

/-- State of the two-account driver: the two lock permit counts, the two
balances, and each thread's position in its operation sequence. -/
structure TSt : Type where
  l1 : Nat
  l2 : Nat
  b1 : Int
  b2 : Int
  pc1 : Nat
  pc2 : Nat
deriving DecidableEq

/-- Balance of the account with the given id (the driver uses ids 1 and 2). -/
def getBal (i : Nat) (s : TSt) : Int := if i = 1 then s.b1 else s.b2

/-- Replace the balance of the account with the given id. -/
def setBal (i : Nat) (v : Int) (s : TSt) : TSt :=
  if i = 1 then { s with b1 := v } else { s with b2 := v }

/-- Execute one transfer operation for a thread with source `f`, destination
`t` and the given amount: an acquire blocks (yields `none`) while its permit
count is 0, a release always succeeds, and the mutation applies
`guardedMutation` to the original from/to roles. -/
def execAOp (f t : Nat) (amount : Int) (op : AOp) (s : TSt) : Option TSt :=
  match op with
  | .acquire i =>
      if i = 1 then (if s.l1 = 0 then none else some { s with l1 := s.l1 - 1 })
      else (if s.l2 = 0 then none else some { s with l2 := s.l2 - 1 })
  | .release i =>
      if i = 1 then some { s with l1 := s.l1 + 1 }
      else some { s with l2 := s.l2 + 1 }
  | .mutate =>
      let r := guardedMutation (getBal f s) (getBal t s) amount
      some (setBal t r.1.2 (setBal f r.1.1 s))

/-- One step of a thread executing the given operation sequence. -/
def threadStep (prog : List AOp) (f t : Nat) (amount : Int) (pc : Nat)
    (s : TSt) : Option (TSt × Nat) :=
  match prog.get? pc with
  | some op => (execAOp f t amount op s).map (fun s' => (s', pc + 1))
  | none => none

/-- Thread-1 of the deadlock demo: `transfer(account1, account2, 100)`. -/
def ustep1 (s : TSt) : Option TSt :=
  (threadStep (transferOps 1 2) 1 2 100 s.pc1 s).map
    (fun p => { p.1 with pc1 := p.2 })

/-- Thread-2 of the deadlock demo: `transfer(account2, account1, 50)`. -/
def ustep2 (s : TSt) : Option TSt :=
  (threadStep (transferOps 2 1) 2 1 50 s.pc2 s).map
    (fun p => { p.1 with pc2 := p.2 })

/-- Thread-1 of the ordered demo: `transfer_ordered(account1, account2, 100)`. -/
def ostep1 (s : TSt) : Option TSt :=
  (threadStep (transferOrderedOps 1 2) 1 2 100 s.pc1 s).map
    (fun p => { p.1 with pc1 := p.2 })

/-- Thread-2 of the ordered demo: `transfer_ordered(account2, account1, 50)`. -/
def ostep2 (s : TSt) : Option TSt :=
  (threadStep (transferOrderedOps 2 1) 2 1 50 s.pc2 s).map
    (fun p => { p.1 with pc2 := p.2 })

/-- Initial state of both demos (`main_ordered` resets the balances to
1000/1000 before its run): both locks free, both threads at their first
operation. -/
def TInit : TSt := { l1 := 1, l2 := 1, b1 := 1000, b2 := 1000, pc1 := 0, pc2 := 0 }

/-- Interleaving semantics of the unordered deadlock demo. -/
inductive UStep : TSt → TSt → Prop
  | t1 {s t} : ustep1 s = some t → UStep s t
  | t2 {s t} : ustep2 s = some t → UStep s t

/-- Interleaving semantics of the ordered demo. -/
inductive OStep : TSt → TSt → Prop
  | t1 {s t} : ostep1 s = some t → OStep s t
  | t2 {s t} : ostep2 s = some t → OStep s t

/-- Reachable states of the unordered demo. -/
inductive UReach : TSt → Prop
  | init : UReach TInit
  | step {s t} : UReach s → UStep s t → UReach t

/-- Reachable states of the ordered demo. -/
inductive OReach : TSt → Prop
  | init : OReach TInit
  | step {s t} : OReach s → OStep s t → OReach t

/-- Remaining-work measure of a two-thread driver state: each thread has five
operations to run. -/
def tmeas (s : TSt) : Nat := (5 - s.pc1) + (5 - s.pc2)

/-- The circular-wait state of the unordered demo: each thread has acquired
its source account's lock (its first operation) and is parked at its second. -/
def DeadSt : TSt := { l1 := 0, l2 := 0, b1 := 1000, b2 := 1000, pc1 := 1, pc2 := 1 }

/-- The reachable states of the ordered demo (certificate for the finite-state
argument; fields are lock1, lock2, balance1, balance2, pc1, pc2). -/
def oList : List TSt :=
  [⟨1,1,1000,1000,0,0⟩, ⟨0,1,1000,1000,1,0⟩, ⟨0,1,1000,1000,0,1⟩,
   ⟨0,0,1000,1000,2,0⟩, ⟨0,0,1000,1000,0,2⟩, ⟨0,0,900,1100,3,0⟩,
   ⟨0,0,1050,950,0,3⟩, ⟨0,1,900,1100,4,0⟩, ⟨0,1,1050,950,0,4⟩,
   ⟨1,1,900,1100,5,0⟩, ⟨1,1,1050,950,0,5⟩, ⟨0,1,900,1100,5,1⟩,
   ⟨0,1,1050,950,1,5⟩, ⟨0,0,900,1100,5,2⟩, ⟨0,0,1050,950,2,5⟩,
   ⟨0,0,950,1050,5,3⟩, ⟨0,0,950,1050,3,5⟩, ⟨0,1,950,1050,4,5⟩,
   ⟨0,1,950,1050,5,4⟩, ⟨1,1,950,1050,5,5⟩]

/-- The reachable states of the unordered deadlock demo (certificate for the
finite-state argument). -/
def uList : List TSt :=
  [⟨1,1,1000,1000,0,0⟩, ⟨0,1,1000,1000,1,0⟩, ⟨1,0,1000,1000,0,1⟩,
   ⟨0,0,1000,1000,1,1⟩, ⟨0,0,1000,1000,2,0⟩, ⟨0,0,1000,1000,0,2⟩,
   ⟨0,0,900,1100,3,0⟩, ⟨0,0,1050,950,0,3⟩, ⟨0,1,900,1100,4,0⟩,
   ⟨1,0,1050,950,0,4⟩, ⟨1,1,900,1100,5,0⟩, ⟨1,1,1050,950,0,5⟩,
   ⟨1,0,900,1100,5,1⟩, ⟨0,1,1050,950,1,5⟩, ⟨0,0,900,1100,4,1⟩,
   ⟨0,0,1050,950,1,4⟩, ⟨0,0,900,1100,5,2⟩, ⟨0,0,1050,950,2,5⟩,
   ⟨0,0,950,1050,5,3⟩, ⟨0,0,950,1050,3,5⟩, ⟨0,1,950,1050,4,5⟩,
   ⟨1,0,950,1050,5,4⟩, ⟨1,1,950,1050,5,5⟩]

/-THEOREMS_BELOW-/

/-! ### Buffer helper values -/

theorem pSpaceDebt0 : pSpaceDebt 0 = 0 := rfl
theorem pSpaceDebt1 : pSpaceDebt 1 = 1 := rfl
theorem pSpaceDebt2 : pSpaceDebt 2 = 2 := rfl
theorem pSpaceDebt3 : pSpaceDebt 3 = 2 := rfl
theorem pSpaceDebt4 : pSpaceDebt 4 = 1 := rfl
theorem pSpaceDebt5 : pSpaceDebt 5 = 0 := rfl
theorem pSpaceDebt6 : pSpaceDebt 6 = 0 := rfl
theorem pSpaceDebt7 : pSpaceDebt 7 = 0 := rfl
theorem cSpaceDebt0 : cSpaceDebt 0 = 0 := rfl
theorem cSpaceDebt1 : cSpaceDebt 1 = 0 := rfl
theorem cSpaceDebt2 : cSpaceDebt 2 = 0 := rfl
theorem cSpaceDebt3 : cSpaceDebt 3 = 0 := rfl
theorem cSpaceDebt4 : cSpaceDebt 4 = 1 := rfl
theorem cSpaceDebt5 : cSpaceDebt 5 = 2 := rfl
theorem cSpaceDebt6 : cSpaceDebt 6 = 2 := rfl
theorem cSpaceDebt7 : cSpaceDebt 7 = 1 := rfl
theorem cSpaceDebt8 : cSpaceDebt 8 = 0 := rfl
theorem pFullDebt0 : pFullDebt 0 = 0 := rfl
theorem pFullDebt1 : pFullDebt 1 = 0 := rfl
theorem pFullDebt2 : pFullDebt 2 = 0 := rfl
theorem pFullDebt3 : pFullDebt 3 = 0 := rfl
theorem pFullDebt4 : pFullDebt 4 = 1 := rfl
theorem pFullDebt5 : pFullDebt 5 = 2 := rfl
theorem pFullDebt6 : pFullDebt 6 = 2 := rfl
theorem pFullDebt7 : pFullDebt 7 = 1 := rfl
theorem cFullHeld0 : cFullHeld 0 = 0 := rfl
theorem cFullHeld1 : cFullHeld 1 = 1 := rfl
theorem cFullHeld2 : cFullHeld 2 = 2 := rfl
theorem cFullHeld3 : cFullHeld 3 = 2 := rfl
theorem cFullHeld4 : cFullHeld 4 = 1 := rfl
theorem cFullHeld5 : cFullHeld 5 = 0 := rfl
theorem cFullHeld6 : cFullHeld 6 = 0 := rfl
theorem cFullHeld7 : cFullHeld 7 = 0 := rfl
theorem cFullHeld8 : cFullHeld 8 = 0 := rfl
theorem pInLock0 : pInLock 0 = 0 := rfl
theorem pInLock1 : pInLock 1 = 0 := rfl
theorem pInLock2 : pInLock 2 = 0 := rfl
theorem pInLock3 : pInLock 3 = 1 := rfl
theorem pInLock4 : pInLock 4 = 1 := rfl
theorem pInLock5 : pInLock 5 = 1 := rfl
theorem pInLock6 : pInLock 6 = 0 := rfl
theorem pInLock7 : pInLock 7 = 0 := rfl
theorem cInLock0 : cInLock 0 = 0 := rfl
theorem cInLock1 : cInLock 1 = 0 := rfl
theorem cInLock2 : cInLock 2 = 0 := rfl
theorem cInLock3 : cInLock 3 = 1 := rfl
theorem cInLock4 : cInLock 4 = 1 := rfl
theorem cInLock5 : cInLock 5 = 1 := rfl
theorem cInLock6 : cInLock 6 = 0 := rfl
theorem cInLock7 : cInLock 7 = 0 := rfl
theorem cInLock8 : cInLock 8 = 0 := rfl

theorem ne_four_of_pInLock_eq_zero {n : Nat} (h : pInLock n = 0) : n ≠ 4 := by
  intro hn
  rw [hn] at h
  exact absurd h (by decide)

theorem sum3_update (f : Fin 3 → Nat) (g : Nat → Nat) (i : Fin 3) (v : Nat) :
    g (Function.update f i v 0) + g (Function.update f i v 1)
        + g (Function.update f i v 2) + g (f i)
      = g (f 0) + g (f 1) + g (f 2) + g v := by
  fin_cases i <;> simp [Function.update] <;> ring

theorem update_ne_of_ne {f : Fin 3 → Nat} {i j : Fin 3} {v : Nat}
    (hj : f j ≠ 4) (hv : v ≠ 4) : Function.update f i v j ≠ 4 := by
  by_cases hij : j = i
  · subst hij
    rw [Function.update_same]
    exact hv
  · rw [Function.update_noteq hij]
    exact hj

theorem pairList_append (ps : List Nat) (j : Nat) :
    pairList (ps ++ [j]) = pairList ps ++ [(j, false), (j, true)] := by
  induction ps with
  | nil => rfl
  | cons a ps ih => simp [pairList, ih]



/-! ### Buffer mutual exclusion and shape transfer -/

theorem ne_four_of_cInLock_eq_zero {n : Nat} (h : cInLock n = 0) : n ≠ 4 := by
  intro hn
  rw [hn] at h
  exact absurd h (by decide)

theorem lock_excl_pp {s : BState} (hl : lockInv s) {i j : Fin 3} (hij : j ≠ i)
    (hi : pInLock (s.prodPc i) = 1) : pInLock (s.prodPc j) = 0 := by
  unfold lockInv at hl
  fin_cases i <;> fin_cases j <;> simp at hij hi ⊢ <;> omega

theorem lock_excl_pc {s : BState} (hl : lockInv s) {i : Fin 3}
    (hi : pInLock (s.prodPc i) = 1) : cInLock s.consPc = 0 ∧ s.lock = 0 := by
  unfold lockInv at hl
  fin_cases i <;> simp at hi <;> omega

theorem lock_excl_cp {s : BState} (hl : lockInv s) (hc : cInLock s.consPc = 1) :
    (∀ j, pInLock (s.prodPc j) = 0) ∧ s.lock = 0 := by
  unfold lockInv at hl
  constructor
  · intro j
    fin_cases j <;> simp <;> omega
  · omega

theorem shapeInv_prod_move {s : BState} (hs : shapeInv s) {i : Fin 3} {v : Nat}
    (hold : s.prodPc i ≠ 4) (hv : v ≠ 4) {t : BState}
    (htb : t.buffer = s.buffer) (htc : t.consPc = s.consPc)
    (htg : t.consGot = s.consGot)
    (htp : t.prodPc = Function.update s.prodPc i v) :
    shapeInv t := by
  rcases hs with ⟨hnp, hnc, ps, hb⟩ | ⟨j, hj4, ps, hb⟩ | ⟨hc4, j, ps, hg, hb⟩
  · refine Or.inl ⟨fun i' => ?_, by rw [htc]; exact hnc, ⟨ps, by rw [htb, hb]⟩⟩
    rw [htp]
    exact update_ne_of_ne (hnp i') hv
  · refine Or.inr (Or.inl ⟨j, ?_, ps, by rw [htb, hb]⟩)
    have hji : j ≠ i := by
      intro hh
      rw [hh] at hj4
      exact hold hj4
    rw [htp, Function.update_noteq hji]
    exact hj4
  · exact Or.inr (Or.inr ⟨by rw [htc]; exact hc4, j, ps,
      by rw [htg]; exact hg, by rw [htb]; exact hb⟩)

theorem shapeInv_cons_move {s : BState} (hs : shapeInv s) {v : Nat}
    (hold : s.consPc ≠ 4) (hv : v ≠ 4) {t : BState}
    (htb : t.buffer = s.buffer) (htc : t.consPc = v) (_htg : t.consGot = s.consGot)
    (htp : t.prodPc = s.prodPc) : shapeInv t := by
  rcases hs with ⟨hnp, hnc, ps, hb⟩ | ⟨j, hj4, ps, hb⟩ | ⟨hc4, j, ps, hg, hb⟩
  · exact Or.inl ⟨fun i' => by rw [htp]; exact hnp i', by rw [htc]; exact hv,
      ⟨ps, by rw [htb, hb]⟩⟩
  · exact Or.inr (Or.inl ⟨j, by rw [htp]; exact hj4, ps, by rw [htb, hb]⟩)
  · exact absurd hc4 hold


/-! ### Buffer invariant preservation -/

theorem produce_inv {i : Fin 3} {s t : BState} (h : produceStep i s = some t)
    (hinv : BInv s) : BInv t := by
  obtain ⟨hlock, hspace, hfull, hshape, hcons, hcr⟩ := hinv
  have hlock' := hlock
  unfold lockInv at hlock
  unfold spaceInv at hspace
  unfold fullInv at hfull
  unfold produceStep at h
  split at h
  · -- pc 0: first space.acquire
    rename_i heq
    split at h
    · exact absurd h (by simp)
    rename_i hz
    injection h with h'
    subst h'
    refine ⟨?_, ?_, ?_, ?_, hcons, hcr⟩
    · simp only [lockInv]
      have hsum := sum3_update s.prodPc pInLock i 1
      rw [heq] at hsum
      simp only [pInLock0, pInLock1] at hsum
      omega
    · simp only [spaceInv]
      have hsum := sum3_update s.prodPc pSpaceDebt i 1
      rw [heq] at hsum
      simp only [pSpaceDebt0, pSpaceDebt1] at hsum
      omega
    · simp only [fullInv]
      have hsum := sum3_update s.prodPc pFullDebt i 1
      rw [heq] at hsum
      simp only [pFullDebt0, pFullDebt1] at hsum
      omega
    · exact shapeInv_prod_move hshape (by rw [heq]; decide) (by decide)
        rfl rfl rfl rfl
  · -- pc 1: second space.acquire
    rename_i heq
    split at h
    · exact absurd h (by simp)
    rename_i hz
    injection h with h'
    subst h'
    refine ⟨?_, ?_, ?_, ?_, hcons, hcr⟩
    · simp only [lockInv]
      have hsum := sum3_update s.prodPc pInLock i 2
      rw [heq] at hsum
      simp only [pInLock1, pInLock2] at hsum
      omega
    · simp only [spaceInv]
      have hsum := sum3_update s.prodPc pSpaceDebt i 2
      rw [heq] at hsum
      simp only [pSpaceDebt1, pSpaceDebt2] at hsum
      omega
    · simp only [fullInv]
      have hsum := sum3_update s.prodPc pFullDebt i 2
      rw [heq] at hsum
      simp only [pFullDebt1, pFullDebt2] at hsum
      omega
    · exact shapeInv_prod_move hshape (by rw [heq]; decide) (by decide)
        rfl rfl rfl rfl
  · -- pc 2: lock.acquire
    rename_i heq
    split at h
    · exact absurd h (by simp)
    rename_i hz
    injection h with h'
    subst h'
    refine ⟨?_, ?_, ?_, ?_, hcons, hcr⟩
    · simp only [lockInv]
      have hsum := sum3_update s.prodPc pInLock i 3
      rw [heq] at hsum
      simp only [pInLock2, pInLock3] at hsum
      omega
    · simp only [spaceInv]
      have hsum := sum3_update s.prodPc pSpaceDebt i 3
      rw [heq] at hsum
      simp only [pSpaceDebt2, pSpaceDebt3] at hsum
      omega
    · simp only [fullInv]
      have hsum := sum3_update s.prodPc pFullDebt i 3
      rw [heq] at hsum
      simp only [pFullDebt2, pFullDebt3] at hsum
      omega
    · exact shapeInv_prod_move hshape (by rw [heq]; decide) (by decide)
        rfl rfl rfl rfl
  · -- pc 3: first append
    rename_i heq
    injection h with h'
    subst h'
    have hpl : pInLock (s.prodPc i) = 1 := by rw [heq]; rfl
    have hexcl := lock_excl_pc hlock' hpl
    have hpp : ∀ j, j ≠ i → pInLock (s.prodPc j) = 0 :=
      fun j hj => lock_excl_pp hlock' hj hpl
    refine ⟨?_, ?_, ?_, ?_, hcons, hcr⟩
    · simp only [lockInv]
      have hsum := sum3_update s.prodPc pInLock i 4
      rw [heq] at hsum
      simp only [pInLock3, pInLock4] at hsum
      omega
    · simp only [spaceInv, List.length_append, List.length_cons, List.length_nil]
      have hsum := sum3_update s.prodPc pSpaceDebt i 4
      rw [heq] at hsum
      simp only [pSpaceDebt3, pSpaceDebt4] at hsum
      omega
    · simp only [fullInv, List.length_append, List.length_cons, List.length_nil]
      have hsum := sum3_update s.prodPc pFullDebt i 4
      rw [heq] at hsum
      simp only [pFullDebt3, pFullDebt4] at hsum
      omega
    · rcases hshape with ⟨hnp, hnc, ps, hb⟩ | ⟨j, hj4, ps, hb⟩ | ⟨hc4, j, ps, hg, hb⟩
      · refine Or.inr (Or.inl ⟨i, ?_, ps, ?_⟩)
        · exact Function.update_same i 4 s.prodPc
        · show s.buffer ++ [(i.val, false)] = pairList ps ++ [(i.val, false)]
          rw [hb]
      · exfalso
        by_cases hji : j = i
        · rw [hji, heq] at hj4
          exact absurd hj4 (by decide)
        · have := hpp j hji
          rw [hj4] at this
          exact absurd this (by decide)
      · exfalso
        rw [hc4] at hexcl
        exact absurd hexcl.1 (by decide)
  · -- pc 4: second append
    rename_i heq
    injection h with h'
    subst h'
    have hpl : pInLock (s.prodPc i) = 1 := by rw [heq]; rfl
    have hexcl := lock_excl_pc hlock' hpl
    have hpp : ∀ j, j ≠ i → pInLock (s.prodPc j) = 0 :=
      fun j hj => lock_excl_pp hlock' hj hpl
    refine ⟨?_, ?_, ?_, ?_, hcons, hcr⟩
    · simp only [lockInv]
      have hsum := sum3_update s.prodPc pInLock i 5
      rw [heq] at hsum
      simp only [pInLock4, pInLock5] at hsum
      omega
    · simp only [spaceInv, List.length_append, List.length_cons, List.length_nil]
      have hsum := sum3_update s.prodPc pSpaceDebt i 5
      rw [heq] at hsum
      simp only [pSpaceDebt4, pSpaceDebt5] at hsum
      omega
    · simp only [fullInv, List.length_append, List.length_cons, List.length_nil]
      have hsum := sum3_update s.prodPc pFullDebt i 5
      rw [heq] at hsum
      simp only [pFullDebt4, pFullDebt5] at hsum
      omega
    · rcases hshape with ⟨hnp, hnc, ps, hb⟩ | ⟨j, hj4, ps, hb⟩ | ⟨hc4, j, ps, hg, hb⟩
      · exact absurd heq (hnp i)
      · have hji : j = i := by
          by_contra hne
          have := hpp j hne
          rw [hj4] at this
          exact absurd this (by decide)
        subst hji
        refine Or.inl ⟨?_, ?_, ⟨ps ++ [j.val], ?_⟩⟩
        · intro i'
          show Function.update s.prodPc j 5 i' ≠ 4
          by_cases hii : i' = j
          · subst hii
            rw [Function.update_same]
            decide
          · rw [Function.update_noteq hii]
            have := hpp i' hii
            exact ne_four_of_pInLock_eq_zero this
        · exact ne_four_of_cInLock_eq_zero hexcl.1
        · show s.buffer ++ [(j.val, true)] = pairList (ps ++ [j.val])
          rw [hb, pairList_append]
          simp
      · exfalso
        rw [hc4] at hexcl
        exact absurd hexcl.1 (by decide)
  · -- pc 5: lock.release
    rename_i heq
    injection h with h'
    subst h'
    refine ⟨?_, ?_, ?_, ?_, hcons, hcr⟩
    · simp only [lockInv]
      have hsum := sum3_update s.prodPc pInLock i 6
      rw [heq] at hsum
      simp only [pInLock5, pInLock6] at hsum
      omega
    · simp only [spaceInv]
      have hsum := sum3_update s.prodPc pSpaceDebt i 6
      rw [heq] at hsum
      simp only [pSpaceDebt5, pSpaceDebt6] at hsum
      omega
    · simp only [fullInv]
      have hsum := sum3_update s.prodPc pFullDebt i 6
      rw [heq] at hsum
      simp only [pFullDebt5, pFullDebt6] at hsum
      omega
    · exact shapeInv_prod_move hshape (by rw [heq]; decide) (by decide)
        rfl rfl rfl rfl
  · -- pc 6: first full.release
    rename_i heq
    injection h with h'
    subst h'
    refine ⟨?_, ?_, ?_, ?_, hcons, hcr⟩
    · simp only [lockInv]
      have hsum := sum3_update s.prodPc pInLock i 7
      rw [heq] at hsum
      simp only [pInLock6, pInLock7] at hsum
      omega
    · simp only [spaceInv]
      have hsum := sum3_update s.prodPc pSpaceDebt i 7
      rw [heq] at hsum
      simp only [pSpaceDebt6, pSpaceDebt7] at hsum
      omega
    · simp only [fullInv]
      have hsum := sum3_update s.prodPc pFullDebt i 7
      rw [heq] at hsum
      simp only [pFullDebt6, pFullDebt7] at hsum
      omega
    · exact shapeInv_prod_move hshape (by rw [heq]; decide) (by decide)
        rfl rfl rfl rfl
  · -- pc 7: second full.release
    rename_i heq
    injection h with h'
    subst h'
    refine ⟨?_, ?_, ?_, ?_, hcons, hcr⟩
    · simp only [lockInv]
      have hsum := sum3_update s.prodPc pInLock i 0
      rw [heq] at hsum
      simp only [pInLock7, pInLock0] at hsum
      omega
    · simp only [spaceInv]
      have hsum := sum3_update s.prodPc pSpaceDebt i 0
      rw [heq] at hsum
      simp only [pSpaceDebt7, pSpaceDebt0] at hsum
      omega
    · simp only [fullInv]
      have hsum := sum3_update s.prodPc pFullDebt i 0
      rw [heq] at hsum
      simp only [pFullDebt7, pFullDebt0] at hsum
      omega
    · exact shapeInv_prod_move hshape (by rw [heq]; decide) (by decide)
        rfl rfl rfl rfl
  · -- dead program counter
    exact absurd h (by simp)


theorem consume_inv {s t : BState} (h : consumeStep s = some t)
    (hinv : BInv s) : BInv t := by
  obtain ⟨hlock, hspace, hfull, hshape, hcons, hcr⟩ := hinv
  have hlock' := hlock
  unfold lockInv at hlock
  unfold spaceInv at hspace
  unfold fullInv at hfull
  unfold consumeStep at h
  split at h
  · -- pc 0: first full.acquire
    rename_i heq
    split at h
    · exact absurd h (by simp)
    rename_i hz
    injection h with h'
    subst h'
    rw [heq] at hlock hspace hfull
    simp only [cInLock0, cSpaceDebt0, cFullHeld0] at hlock hspace hfull
    refine ⟨?_, ?_, ?_, ?_, hcons, hcr⟩
    · simp only [lockInv, cInLock1]
      omega
    · simp only [spaceInv, cSpaceDebt1]
      omega
    · simp only [fullInv, cFullHeld1]
      omega
    · exact shapeInv_cons_move hshape (by rw [heq]; decide) (show (1:Nat) ≠ 4 by decide)
        rfl rfl rfl rfl
  · -- pc 1: second full.acquire
    rename_i heq
    split at h
    · exact absurd h (by simp)
    rename_i hz
    injection h with h'
    subst h'
    rw [heq] at hlock hspace hfull
    simp only [cInLock1, cSpaceDebt1, cFullHeld1] at hlock hspace hfull
    refine ⟨?_, ?_, ?_, ?_, hcons, hcr⟩
    · simp only [lockInv, cInLock2]
      omega
    · simp only [spaceInv, cSpaceDebt2]
      omega
    · simp only [fullInv, cFullHeld2]
      omega
    · exact shapeInv_cons_move hshape (by rw [heq]; decide) (show (2:Nat) ≠ 4 by decide)
        rfl rfl rfl rfl
  · -- pc 2: lock.acquire
    rename_i heq
    split at h
    · exact absurd h (by simp)
    rename_i hz
    injection h with h'
    subst h'
    rw [heq] at hlock hspace hfull
    simp only [cInLock2, cSpaceDebt2, cFullHeld2] at hlock hspace hfull
    refine ⟨?_, ?_, ?_, ?_, hcons, hcr⟩
    · simp only [lockInv, cInLock3]
      omega
    · simp only [spaceInv, cSpaceDebt3]
      omega
    · simp only [fullInv, cFullHeld3]
      omega
    · exact shapeInv_cons_move hshape (by rw [heq]; decide) (show (3:Nat) ≠ 4 by decide)
        rfl rfl rfl rfl
  · -- pc 3: first buffer.pop(0)
    rename_i heq
    have hcl : cInLock s.consPc = 1 := by rw [heq]; rfl
    have hexcl := lock_excl_cp hlock' hcl
    rw [heq] at hlock hspace hfull
    simp only [cInLock3, cSpaceDebt3, cFullHeld3] at hlock hspace hfull
    split at h
    · -- empty buffer: contradicts the filled-slot accounting
      exfalso
      rename_i hbuf
      rw [hbuf] at hfull
      simp only [List.length_nil] at hfull
      omega
    · rename_i x rest hbuf
      injection h with h'
      subst h'
      -- the buffer holds whole pairs here
      have hsh : ∃ ps, s.buffer = pairList ps := by
        rcases hshape with ⟨_, _, ps, hb⟩ | ⟨j, hj4, _, _⟩ | ⟨hc4, _⟩
        · exact ⟨ps, hb⟩
        · exfalso
          have := hexcl.1 j
          rw [hj4] at this
          exact absurd this (by decide)
        · exfalso
          rw [heq] at hc4
          exact absurd hc4 (by decide)
      obtain ⟨ps, hb⟩ := hsh
      rcases ps with _ | ⟨j, ps'⟩
      · exfalso
        rw [hbuf] at hb
        exact absurd hb (by simp [pairList])
      · rw [hbuf] at hb
        simp only [pairList, List.cons.injEq] at hb
        obtain ⟨hx, hrest⟩ := hb
        refine ⟨?_, ?_, ?_, ?_, hcons, hcr⟩
        · simp only [lockInv, cInLock4]
          omega
        · simp only [spaceInv, cSpaceDebt4]
          rw [hbuf] at hspace
          simp only [List.length_cons] at hspace
          omega
        · simp only [fullInv, cFullHeld4]
          rw [hbuf] at hfull
          simp only [List.length_cons] at hfull
          omega
        · refine Or.inr (Or.inr ⟨rfl, j, ps', ?_, ?_⟩)
          · show some x = some (j, false)
            rw [hx]
          · show rest = (j, true) :: pairList ps'
            exact hrest
  · -- pc 4: second buffer.pop(0)
    rename_i heq
    have hcl : cInLock s.consPc = 1 := by rw [heq]; rfl
    have hexcl := lock_excl_cp hlock' hcl
    rw [heq] at hlock hspace hfull
    simp only [cInLock4, cSpaceDebt4, cFullHeld4] at hlock hspace hfull
    split at h
    · -- empty buffer: contradicts the filled-slot accounting
      exfalso
      rename_i hbuf
      rw [hbuf] at hfull
      simp only [List.length_nil] at hfull
      omega
    · rename_i y rest hbuf
      injection h with h'
      subst h'
      -- mid-pop shape: the pair's second element heads the buffer
      have hsh : ∃ j ps, s.consGot = some (j, false)
          ∧ s.buffer = (j, true) :: pairList ps := by
        rcases hshape with ⟨_, hnc, _, _⟩ | ⟨j, hj4, _, _⟩ | ⟨_, j, ps, hg, hb⟩
        · exact absurd heq hnc
        · exfalso
          have := hexcl.1 j
          rw [hj4] at this
          exact absurd this (by decide)
        · exact ⟨j, ps, hg, hb⟩
      obtain ⟨j, ps, hg, hb⟩ := hsh
      rw [hbuf] at hb
      simp only [List.cons.injEq] at hb
      obtain ⟨hy, hrest⟩ := hb
      refine ⟨?_, ?_, ?_, ?_, ?_, hcr⟩
      · simp only [lockInv, cInLock5]
        omega
      · simp only [spaceInv, cSpaceDebt5]
        rw [hbuf] at hspace
        simp only [List.length_cons] at hspace
        omega
      · simp only [fullInv, cFullHeld5]
        rw [hbuf] at hfull
        simp only [List.length_cons] at hfull
        omega
      · refine Or.inl ⟨?_, show (5:Nat) ≠ 4 by decide, ⟨ps, ?_⟩⟩
        · intro i'
          show s.prodPc i' ≠ 4
          exact ne_four_of_pInLock_eq_zero (hexcl.1 i')
        · show rest = pairList ps
          exact hrest
      · -- the new consumed entry is producer j's A-then-B pair
        intro p hp
        show ∃ m, p = ((m, false), (m, true))
        rw [hg] at hp
        simp only [List.mem_append, List.mem_singleton] at hp
        rcases hp with hp | hp
        · exact hcons p hp
        · exact ⟨j, by rw [hp, hy]⟩
  · -- pc 5: lock.release
    rename_i heq
    injection h with h'
    subst h'
    rw [heq] at hlock hspace hfull
    simp only [cInLock5, cSpaceDebt5, cFullHeld5] at hlock hspace hfull
    refine ⟨?_, ?_, ?_, ?_, hcons, hcr⟩
    · simp only [lockInv, cInLock6]
      omega
    · simp only [spaceInv, cSpaceDebt6]
      omega
    · simp only [fullInv, cFullHeld6]
      omega
    · exact shapeInv_cons_move hshape (by rw [heq]; decide) (show (6:Nat) ≠ 4 by decide)
        rfl rfl rfl rfl
  · -- pc 6: first space.release
    rename_i heq
    injection h with h'
    subst h'
    rw [heq] at hlock hspace hfull
    simp only [cInLock6, cSpaceDebt6, cFullHeld6] at hlock hspace hfull
    refine ⟨?_, ?_, ?_, ?_, hcons, hcr⟩
    · simp only [lockInv, cInLock7]
      omega
    · simp only [spaceInv, cSpaceDebt7]
      omega
    · simp only [fullInv, cFullHeld7]
      omega
    · exact shapeInv_cons_move hshape (by rw [heq]; decide) (show (7:Nat) ≠ 4 by decide)
        rfl rfl rfl rfl
  · -- pc 7: second space.release
    rename_i heq
    injection h with h'
    subst h'
    rw [heq] at hlock hspace hfull
    simp only [cInLock7, cSpaceDebt7, cFullHeld7] at hlock hspace hfull
    refine ⟨?_, ?_, ?_, ?_, hcons, hcr⟩
    · simp only [lockInv, cInLock0]
      omega
    · simp only [spaceInv, cSpaceDebt0]
      omega
    · simp only [fullInv, cFullHeld0]
      omega
    · exact shapeInv_cons_move hshape (by rw [heq]; decide) (show (0:Nat) ≠ 4 by decide)
        rfl rfl rfl rfl
  · -- dead program counter
    exact absurd h (by simp)

theorem breach_inv {s : BState} (h : BReach s) : BInv s := by
  induction h with
  | init =>
    refine ⟨rfl, rfl, rfl, ?_, ?_, rfl⟩
    · exact Or.inl ⟨fun i => show (0:Nat) ≠ 4 by decide,
        show (0:Nat) ≠ 4 by decide, ⟨[], rfl⟩⟩
    · intro p hp
      exact absurd hp (by simp [BInit])
  | step _ hstep ih =>
    cases hstep with
    | prod hp => exact produce_inv hp ih
    | cons hc => exact consume_inv hc ih


/-! ### Buffer consequences -/

theorem breach_len_le {s : BState} (h : BReach s) : s.buffer.length ≤ 100 := by
  have hs := (breach_inv h).2.1
  unfold spaceInv at hs
  omega

theorem produce_buffer_change {i : Fin 3} {s t : BState}
    (h : produceStep i s = some t) (hb : t.buffer ≠ s.buffer) :
    pInLock (s.prodPc i) = 1 := by
  unfold produceStep at h
  split at h
  · rename_i heq
    split at h
    · exact absurd h (by simp)
    injection h with h'
    subst h'
    exact absurd rfl hb
  · rename_i heq
    split at h
    · exact absurd h (by simp)
    injection h with h'
    subst h'
    exact absurd rfl hb
  · rename_i heq
    split at h
    · exact absurd h (by simp)
    injection h with h'
    subst h'
    exact absurd rfl hb
  · rename_i heq
    rw [heq]
    rfl
  · rename_i heq
    rw [heq]
    rfl
  · rename_i heq
    injection h with h'
    subst h'
    exact absurd rfl hb
  · rename_i heq
    injection h with h'
    subst h'
    exact absurd rfl hb
  · rename_i heq
    injection h with h'
    subst h'
    exact absurd rfl hb
  · exact absurd h (by simp)

theorem consume_buffer_change {s t : BState} (h : consumeStep s = some t)
    (hb : t.buffer ≠ s.buffer) : cInLock s.consPc = 1 := by
  unfold consumeStep at h
  split at h
  · rename_i heq
    split at h
    · exact absurd h (by simp)
    injection h with h'
    subst h'
    exact absurd rfl hb
  · rename_i heq
    split at h
    · exact absurd h (by simp)
    injection h with h'
    subst h'
    exact absurd rfl hb
  · rename_i heq
    split at h
    · exact absurd h (by simp)
    injection h with h'
    subst h'
    exact absurd rfl hb
  · rename_i heq
    rw [heq]
    rfl
  · rename_i heq
    rw [heq]
    rfl
  · rename_i heq
    injection h with h'
    subst h'
    exact absurd rfl hb
  · rename_i heq
    injection h with h'
    subst h'
    exact absurd rfl hb
  · rename_i heq
    injection h with h'
    subst h'
    exact absurd rfl hb
  · exact absurd h (by simp)

theorem bstep_mutation_locked {who : BTid} {s t : BState} (hr : BReach s)
    (hstep : BStep who s t) (hb : t.buffer ≠ s.buffer) :
    holdsLock who s ∧ s.lock = 0 := by
  have hinv := breach_inv hr
  cases hstep with
  | prod hp =>
    have h1 := produce_buffer_change hp hb
    exact ⟨h1, (lock_excl_pc hinv.1 h1).2⟩
  | cons hc =>
    have h1 := consume_buffer_change hc hb
    exact ⟨h1, (lock_excl_cp hinv.1 h1).2⟩

theorem produce_blocked {i : Fin 3} {s : BState}
    (hpc : s.prodPc i = 0 ∨ s.prodPc i = 1) (hs : s.space = 0) :
    produceStep i s = none := by
  unfold produceStep
  rcases hpc with hpc | hpc <;> simp [hpc, hs]

theorem consume_blocked {s : BState}
    (hpc : s.consPc = 0 ∨ s.consPc = 1) (hf : s.full = 0) :
    consumeStep s = none := by
  unfold consumeStep
  rcases hpc with hpc | hpc <;> simp [hpc, hf]

theorem produce_acquire1 {i : Fin 3} {s t : BState} (hpc : s.prodPc i = 0)
    (h : produceStep i s = some t) :
    0 < s.space ∧ t.space + 1 = s.space ∧ t.prodPc i = 1 := by
  simp only [produceStep, hpc] at h
  split at h
  · exact absurd h (by simp)
  rename_i hz
  injection h with h'
  subst h'
  refine ⟨by omega, by simp; omega, ?_⟩
  exact Function.update_same i 1 s.prodPc

theorem produce_acquire2 {i : Fin 3} {s t : BState} (hpc : s.prodPc i = 1)
    (h : produceStep i s = some t) :
    0 < s.space ∧ t.space + 1 = s.space ∧ t.prodPc i = 2 := by
  simp only [produceStep, hpc] at h
  split at h
  · exact absurd h (by simp)
  rename_i hz
  injection h with h'
  subst h'
  refine ⟨by omega, by simp; omega, ?_⟩
  exact Function.update_same i 2 s.prodPc

theorem produce_appends_pair {i : Fin 3} {s t u : BState} (hpc : s.prodPc i = 3)
    (h1 : produceStep i s = some t) (h2 : produceStep i t = some u) :
    u.buffer = s.buffer ++ [(i.val, false), (i.val, true)] := by
  simp only [produceStep, hpc] at h1
  injection h1 with h1'
  subst h1'
  simp only [produceStep, Function.update_same] at h2
  injection h2 with h2'
  subst h2'
  simp

theorem consume_returns_front {s t u : BState} {x y : Item} {rest : List Item}
    (hc : s.consPc = 3) (hb : s.buffer = x :: y :: rest)
    (h1 : consumeStep s = some t) (h2 : consumeStep t = some u) :
    u.consumed = s.consumed ++ [(x, y)] ∧ u.buffer = rest := by
  simp only [consumeStep, hc, hb] at h1
  injection h1 with h1'
  subst h1'
  simp only [consumeStep] at h2
  injection h2 with h2'
  subst h2'
  exact ⟨rfl, rfl⟩

theorem breach_mid_acquire :
    ∃ s, BReach s ∧ s.prodPc 0 = 1 ∧ s.prodPc 1 = 1 ∧ s.space = 98 := by
  have h1 : produceStep 0 BInit =
      some { BInit with space := 99, prodPc := Function.update BInit.prodPc 0 1 } := rfl
  have h2 : produceStep 1
      { BInit with space := 99, prodPc := Function.update BInit.prodPc 0 1 } =
      some { BInit with
             space := 98,
             prodPc := Function.update (Function.update BInit.prodPc 0 1) 1 1 } := rfl
  refine ⟨_, BReach.step (BReach.step BReach.init (BStep.prod h1)) (BStep.prod h2),
    ?_, ?_, ?_⟩ <;> decide


/-! ### Transfer: thread-step anatomy -/

theorem threadStep_some {prog : List AOp} {f tid : Nat} {amt : Int} {pc : Nat}
    {s u : TSt} {pc' : Nat} (h : threadStep prog f tid amt pc s = some (u, pc')) :
    ∃ op, prog.get? pc = some op ∧ execAOp f tid amt op s = some u
      ∧ pc' = pc + 1 ∧ pc < prog.length := by
  unfold threadStep at h
  cases hg : prog.get? pc with
  | none => rw [hg] at h; exact absurd h (by simp)
  | some op =>
    rw [hg, Option.map_eq_some'] at h
    obtain ⟨v, hv, hfv⟩ := h
    injection hfv with h1 h2
    subst h1
    subst h2
    exact ⟨op, rfl, hv, rfl, (List.get?_eq_some.mp hg).1⟩

theorem execAOp_pc {f tid : Nat} {amt : Int} {op : AOp} {s u : TSt}
    (h : execAOp f tid amt op s = some u) : u.pc1 = s.pc1 ∧ u.pc2 = s.pc2 := by
  cases op with
  | acquire i =>
    simp only [execAOp] at h
    by_cases hi : i = 1
    · rw [if_pos hi] at h
      by_cases hz : s.l1 = 0
      · rw [if_pos hz] at h
        exact absurd h (by simp)
      · rw [if_neg hz] at h
        injection h with h'
        subst h'
        exact ⟨rfl, rfl⟩
    · rw [if_neg hi] at h
      by_cases hz : s.l2 = 0
      · rw [if_pos hz] at h
        exact absurd h (by simp)
      · rw [if_neg hz] at h
        injection h with h'
        subst h'
        exact ⟨rfl, rfl⟩
  | release i =>
    simp only [execAOp] at h
    by_cases hi : i = 1
    · rw [if_pos hi] at h
      injection h with h'
      subst h'
      exact ⟨rfl, rfl⟩
    · rw [if_neg hi] at h
      injection h with h'
      subst h'
      exact ⟨rfl, rfl⟩
  | mutate =>
    simp only [execAOp] at h
    injection h with h'
    subst h'
    unfold setBal
    constructor <;> split <;> split <;> rfl

theorem ostep1_some {s u : TSt} (h : ostep1 s = some u) :
    u.pc1 = s.pc1 + 1 ∧ s.pc1 < 5 ∧ u.pc2 = s.pc2 := by
  unfold ostep1 at h
  rw [Option.map_eq_some'] at h
  obtain ⟨⟨v, pc'⟩, hv, hmap⟩ := h
  obtain ⟨op, hget, hex, hpc, hlt⟩ := threadStep_some hv
  subst hpc
  subst hmap
  exact ⟨rfl, hlt, (execAOp_pc hex).2⟩

theorem ostep2_some {s u : TSt} (h : ostep2 s = some u) :
    u.pc2 = s.pc2 + 1 ∧ s.pc2 < 5 ∧ u.pc1 = s.pc1 := by
  unfold ostep2 at h
  rw [Option.map_eq_some'] at h
  obtain ⟨⟨v, pc'⟩, hv, hmap⟩ := h
  obtain ⟨op, hget, hex, hpc, hlt⟩ := threadStep_some hv
  subst hpc
  subst hmap
  exact ⟨rfl, hlt, (execAOp_pc hex).1⟩

theorem ustep1_some {s u : TSt} (h : ustep1 s = some u) :
    u.pc1 = s.pc1 + 1 ∧ s.pc1 < 5 ∧ u.pc2 = s.pc2 := by
  unfold ustep1 at h
  rw [Option.map_eq_some'] at h
  obtain ⟨⟨v, pc'⟩, hv, hmap⟩ := h
  obtain ⟨op, hget, hex, hpc, hlt⟩ := threadStep_some hv
  subst hpc
  subst hmap
  exact ⟨rfl, hlt, (execAOp_pc hex).2⟩

theorem ustep2_some {s u : TSt} (h : ustep2 s = some u) :
    u.pc2 = s.pc2 + 1 ∧ s.pc2 < 5 ∧ u.pc1 = s.pc1 := by
  unfold ustep2 at h
  rw [Option.map_eq_some'] at h
  obtain ⟨⟨v, pc'⟩, hv, hmap⟩ := h
  obtain ⟨op, hget, hex, hpc, hlt⟩ := threadStep_some hv
  subst hpc
  subst hmap
  exact ⟨rfl, hlt, (execAOp_pc hex).1⟩

theorem ostep_tmeas {s t : TSt} (h : OStep s t) : tmeas t < tmeas s := by
  unfold tmeas
  cases h with
  | t1 h1 =>
    obtain ⟨ha, hb, hc⟩ := ostep1_some h1
    omega
  | t2 h2 =>
    obtain ⟨ha, hb, hc⟩ := ostep2_some h2
    omega

/-! ### Transfer: money conservation per operation -/

theorem guardedMutation_sum (fb tb amt : Int) :
    (guardedMutation fb tb amt).1.1 + (guardedMutation fb tb amt).1.2 = fb + tb := by
  unfold guardedMutation
  split <;> simp


theorem execAOp_sum_12 {amt : Int} {op : AOp} {s u : TSt}
    (h : execAOp 1 2 amt op s = some u) : u.b1 + u.b2 = s.b1 + s.b2 := by
  cases op with
  | acquire i =>
    simp only [execAOp] at h
    by_cases hi : i = 1
    · rw [if_pos hi] at h
      by_cases hz : s.l1 = 0
      · rw [if_pos hz] at h
        exact absurd h (by simp)
      · rw [if_neg hz] at h
        injection h with h'
        subst h'
        rfl
    · rw [if_neg hi] at h
      by_cases hz : s.l2 = 0
      · rw [if_pos hz] at h
        exact absurd h (by simp)
      · rw [if_neg hz] at h
        injection h with h'
        subst h'
        rfl
  | release i =>
    simp only [execAOp] at h
    by_cases hi : i = 1
    · rw [if_pos hi] at h
      injection h with h'
      subst h'
      rfl
    · rw [if_neg hi] at h
      injection h with h'
      subst h'
      rfl
  | mutate =>
    simp only [execAOp, getBal, setBal] at h
    injection h with h'
    subst h'
    have hg := guardedMutation_sum s.b1 s.b2 amt
    show (guardedMutation s.b1 s.b2 amt).1.1 + (guardedMutation s.b1 s.b2 amt).1.2
      = s.b1 + s.b2
    exact hg

theorem execAOp_sum_21 {amt : Int} {op : AOp} {s u : TSt}
    (h : execAOp 2 1 amt op s = some u) : u.b1 + u.b2 = s.b1 + s.b2 := by
  cases op with
  | acquire i =>
    simp only [execAOp] at h
    by_cases hi : i = 1
    · rw [if_pos hi] at h
      by_cases hz : s.l1 = 0
      · rw [if_pos hz] at h
        exact absurd h (by simp)
      · rw [if_neg hz] at h
        injection h with h'
        subst h'
        rfl
    · rw [if_neg hi] at h
      by_cases hz : s.l2 = 0
      · rw [if_pos hz] at h
        exact absurd h (by simp)
      · rw [if_neg hz] at h
        injection h with h'
        subst h'
        rfl
  | release i =>
    simp only [execAOp] at h
    by_cases hi : i = 1
    · rw [if_pos hi] at h
      injection h with h'
      subst h'
      rfl
    · rw [if_neg hi] at h
      injection h with h'
      subst h'
      rfl
  | mutate =>
    simp only [execAOp, getBal, setBal] at h
    injection h with h'
    subst h'
    have hg := guardedMutation_sum s.b2 s.b1 amt
    show (guardedMutation s.b2 s.b1 amt).1.2 + (guardedMutation s.b2 s.b1 amt).1.1
      = s.b1 + s.b2
    omega

theorem ostep1_sum {s u : TSt} (h : ostep1 s = some u) :
    u.b1 + u.b2 = s.b1 + s.b2 := by
  unfold ostep1 at h
  rw [Option.map_eq_some'] at h
  obtain ⟨⟨v, pc'⟩, hv, hmap⟩ := h
  obtain ⟨op, hget, hex, hpc, hlt⟩ := threadStep_some hv
  subst hmap
  show v.b1 + v.b2 = s.b1 + s.b2
  exact execAOp_sum_12 hex

theorem ostep2_sum {s u : TSt} (h : ostep2 s = some u) :
    u.b1 + u.b2 = s.b1 + s.b2 := by
  unfold ostep2 at h
  rw [Option.map_eq_some'] at h
  obtain ⟨⟨v, pc'⟩, hv, hmap⟩ := h
  obtain ⟨op, hget, hex, hpc, hlt⟩ := threadStep_some hv
  subst hmap
  show v.b1 + v.b2 = s.b1 + s.b2
  exact execAOp_sum_21 hex

theorem ustep1_sum {s u : TSt} (h : ustep1 s = some u) :
    u.b1 + u.b2 = s.b1 + s.b2 := by
  unfold ustep1 at h
  rw [Option.map_eq_some'] at h
  obtain ⟨⟨v, pc'⟩, hv, hmap⟩ := h
  obtain ⟨op, hget, hex, hpc, hlt⟩ := threadStep_some hv
  subst hmap
  show v.b1 + v.b2 = s.b1 + s.b2
  exact execAOp_sum_12 hex

theorem ustep2_sum {s u : TSt} (h : ustep2 s = some u) :
    u.b1 + u.b2 = s.b1 + s.b2 := by
  unfold ustep2 at h
  rw [Option.map_eq_some'] at h
  obtain ⟨⟨v, pc'⟩, hv, hmap⟩ := h
  obtain ⟨op, hget, hex, hpc, hlt⟩ := threadStep_some hv
  subst hmap
  show v.b1 + v.b2 = s.b1 + s.b2
  exact execAOp_sum_21 hex


/-! ### Transfer: finite-state arguments -/

theorem oClosed : ∀ s ∈ oList,
    (ostep1 s = none ∨ ∃ t ∈ oList, ostep1 s = some t) ∧
    (ostep2 s = none ∨ ∃ t ∈ oList, ostep2 s = some t) := by decide

theorem oreach_mem {s : TSt} (h : OReach s) : s ∈ oList := by
  induction h with
  | init => decide
  | step _ hstep ih =>
    cases hstep with
    | t1 h1 =>
      rcases (oClosed _ ih).1 with hn | ⟨t', ht', he⟩
      · rw [hn] at h1
        exact absurd h1 (by simp)
      · rw [he] at h1
        injection h1 with h1'
        rw [← h1']
        exact ht'
    | t2 h2 =>
      rcases (oClosed _ ih).2 with hn | ⟨t', ht', he⟩
      · rw [hn] at h2
        exact absurd h2 (by simp)
      · rw [he] at h2
        injection h2 with h2'
        rw [← h2']
        exact ht'

theorem oStuckExact : ∀ s ∈ oList, ostep1 s = none → ostep2 s = none →
    s.pc1 = 5 ∧ s.pc2 = 5 ∧ s.b1 = 950 ∧ s.b2 = 1050 := by decide

theorem oDoneLocks : ∀ s ∈ oList, s.pc1 = 5 → s.pc2 = 5 →
    s.l1 = 1 ∧ s.l2 = 1 := by decide

theorem uClosed : ∀ s ∈ uList,
    (ustep1 s = none ∨ ∃ t ∈ uList, ustep1 s = some t) ∧
    (ustep2 s = none ∨ ∃ t ∈ uList, ustep2 s = some t) := by decide

theorem ureach_mem {s : TSt} (h : UReach s) : s ∈ uList := by
  induction h with
  | init => decide
  | step _ hstep ih =>
    cases hstep with
    | t1 h1 =>
      rcases (uClosed _ ih).1 with hn | ⟨t', ht', he⟩
      · rw [hn] at h1
        exact absurd h1 (by simp)
      · rw [he] at h1
        injection h1 with h1'
        rw [← h1']
        exact ht'
    | t2 h2 =>
      rcases (uClosed _ ih).2 with hn | ⟨t', ht', he⟩
      · rw [hn] at h2
        exact absurd h2 (by simp)
      · rw [he] at h2
        injection h2 with h2'
        rw [← h2']
        exact ht'

theorem uDeadUnique : ∀ s ∈ uList, s.pc1 = 1 → s.pc2 = 1 → s = DeadSt := by decide

theorem ureach_dead : UReach DeadSt := by
  have h1 : ustep1 TInit = some { TInit with l1 := 0, pc1 := 1 } := rfl
  have h2 : ustep2 { TInit with l1 := 0, pc1 := 1 } = some DeadSt := rfl
  exact UReach.step (UReach.step UReach.init (UStep.t1 h1)) (UStep.t2 h2)

theorem udead_stuck1 : ustep1 DeadSt = none := rfl

theorem udead_stuck2 : ustep2 DeadSt = none := rfl

theorem udead_no_step (t : TSt) : ¬ UStep DeadSt t := by
  intro h
  cases h with
  | t1 h1 =>
    rw [udead_stuck1] at h1
    exact Option.noConfusion h1
  | t2 h2 =>
    rw [udead_stuck2] at h2
    exact Option.noConfusion h2

theorem udead_confined {s : TSt} (h : Relation.ReflTransGen UStep DeadSt s) :
    s = DeadSt := by
  induction h with
  | refl => rfl
  | tail _ hstep ih =>
    rw [ih] at hstep
    exact absurd hstep (udead_no_step _)

/-! ### Relay invariants

No operation of any body releases `a`, so the sum of `a`'s acquire count and
`a`'s current permit count never changes; it is `1` initially, hence Stage0's
body can begin at most once in any execution. -/

theorem procStep_some {body : List ROp} {pc : Nat} {s u : RState} {pc' : Nat}
    (h : procStep body pc s = some (u, pc')) :
    ∃ op, body.get? pc = some op ∧ rexec op s = some u ∧
      pc' = (pc + 1) % body.length := by
  unfold procStep at h
  cases hg : body.get? pc with
  | none => rw [hg] at h; exact absurd h (by simp)
  | some op =>
    rw [hg, Option.map_eq_some'] at h
    obtain ⟨v, hv, hfv⟩ := h
    injection hfv with h1 h2
    subst h1; subst h2
    exact ⟨op, rfl, hv, rfl⟩

theorem rexec_acqA {op : ROp} {s u : RState} (h : rexec op s = some u)
    (hA : op ≠ ROp.release RSem.A) :
    u.acq RSem.A + u.sem RSem.A = s.acq RSem.A + s.sem RSem.A := by
  cases op with
  | acquire x =>
    simp only [rexec] at h
    by_cases hz : s.sem x = 0
    · rw [if_pos hz] at h
      exact absurd h (by simp)
    · rw [if_neg hz] at h
      injection h with h'
      subst h'
      by_cases hx : x = RSem.A
      · subst hx
        simp only [Function.update_same]
        omega
      · simp [Function.update_apply, Ne.symm hx]
  | release x =>
    simp only [rexec] at h
    injection h with h'
    subst h'
    have hx : RSem.A ≠ x := fun hh => hA (by rw [hh])
    simp [Function.update_apply, hx]
  | emit ch =>
    simp only [rexec] at h
    injection h with h'
    subst h'
    rfl

theorem rstep_acqA_semA {s t : RState} (h : RStep s t) :
    t.acq RSem.A + t.sem RSem.A = s.acq RSem.A + s.sem RSem.A := by
  cases h with
  | @p1 u pc' hp =>
    obtain ⟨op, hget, hex, hpc'⟩ := procStep_some hp
    have hmem : op ∈ body1 := List.get?_mem hget
    have hne : op ≠ ROp.release RSem.A := by
      intro he
      rw [he] at hmem
      exact absurd hmem (by decide)
    show u.acq RSem.A + u.sem RSem.A = s.acq RSem.A + s.sem RSem.A
    exact rexec_acqA hex hne
  | @p2 u pc' hp =>
    obtain ⟨op, hget, hex, hpc'⟩ := procStep_some hp
    have hmem : op ∈ body2 := List.get?_mem hget
    have hne : op ≠ ROp.release RSem.A := by
      intro he
      rw [he] at hmem
      exact absurd hmem (by decide)
    show u.acq RSem.A + u.sem RSem.A = s.acq RSem.A + s.sem RSem.A
    exact rexec_acqA hex hne
  | @p3 u pc' hp =>
    obtain ⟨op, hget, hex, hpc'⟩ := procStep_some hp
    have hmem : op ∈ body3 := List.get?_mem hget
    have hne : op ≠ ROp.release RSem.A := by
      intro he
      rw [he] at hmem
      exact absurd hmem (by decide)
    show u.acq RSem.A + u.sem RSem.A = s.acq RSem.A + s.sem RSem.A
    exact rexec_acqA hex hne

theorem rreach_acqA_semA {s : RState} (h : RReach s) :
    s.acq RSem.A + s.sem RSem.A = 1 := by
  induction h with
  | init => rfl
  | step _ hstep ih => rw [rstep_acqA_semA hstep]; exact ih

/-! ## Claims -/

/-- C1: refuted on the code.  `process3` (Stage2) acquires `c` and prints,
but releases no semaphore at all, so the permit cycle is broken: no operation
of any body ever releases `a`, hence in every reachable state Stage0's body
has begun at most once — the three stages cannot run forever in round-robin;
the system stops making progress after one H,E,L,L,O cycle. -/
theorem relay_no_cycle_stage0_runs_once :
    (∀ x : RSem, ROp.release x ∉ body3) ∧
    (∀ s : RState, RReach s → s.acq RSem.A ≤ 1) := by
  constructor
  · intro x hx
    rcases x
    · revert hx
      decide
    · revert hx
      decide
    · revert hx
      decide
  · intro s h
    have := rreach_acqA_semA h
    omega

/-- C8: the relay initialises the permits to a=1, b=0, c=0, and the stage
bodies perform exactly two print emissions for Stage0 (`H`, `E`), two for
Stage1 (`L`, `L`) and one for Stage2 (`O`). -/
theorem relay_init_permits_and_emission_counts :
    RInit.sem RSem.A = 1 ∧ RInit.sem RSem.B = 0 ∧ RInit.sem RSem.C = 0 ∧
    emitCount body1 = 2 ∧ emitCount body2 = 2 ∧ emitCount body3 = 1 :=
  ⟨rfl, rfl, rfl, rfl, rfl, rfl⟩

/-- C5: in every reachable state of the buffer system the occupancy is at
most the capacity 100 (and at least 0, the occupancy being a natural number),
and every step that changes the buffer contents is taken by a thread that
holds the mutex, the mutex permit being exhausted at that moment. -/
theorem buffer_capacity_and_mutex_guard :
    (∀ s, BReach s → s.buffer.length ≤ 100) ∧
    (∀ who s t, BReach s → BStep who s t → t.buffer ≠ s.buffer →
      holdsLock who s ∧ s.lock = 0) :=
  ⟨fun _ h => breach_len_le h, fun _ _ _ hr hs hb => bstep_mutation_locked hr hs hb⟩

/-- C6: a producer's wait for two free slots is two separate single-unit
acquisitions (each blocks exactly when `space = 0` and decrements the count
by one, and a state with two producers each mid-pair is reachable), the
consumer's wait for two filled slots blocks exactly when `full = 0`, a
producer appends its pair's two elements in order, a consume returns the two
front (oldest) elements of the buffer in order, and every pair a consume
iteration has returned is the A-then-B pair of a single producer. -/
theorem pair_protocol_and_pair_atomicity :
    (∀ (i : Fin 3) s, (s.prodPc i = 0 ∨ s.prodPc i = 1) → s.space = 0 →
      produceStep i s = none) ∧
    (∀ s, (s.consPc = 0 ∨ s.consPc = 1) → s.full = 0 → consumeStep s = none) ∧
    (∀ (i : Fin 3) s t, s.prodPc i = 0 → produceStep i s = some t →
      0 < s.space ∧ t.space + 1 = s.space ∧ t.prodPc i = 1) ∧
    (∀ (i : Fin 3) s t, s.prodPc i = 1 → produceStep i s = some t →
      0 < s.space ∧ t.space + 1 = s.space ∧ t.prodPc i = 2) ∧
    (∃ s, BReach s ∧ s.prodPc 0 = 1 ∧ s.prodPc 1 = 1 ∧ s.space = 98) ∧
    (∀ (i : Fin 3) s t u, s.prodPc i = 3 → produceStep i s = some t →
      produceStep i t = some u →
      u.buffer = s.buffer ++ [(i.val, false), (i.val, true)]) ∧
    (∀ s t u x y rest, s.consPc = 3 → s.buffer = x :: y :: rest →
      consumeStep s = some t → consumeStep t = some u →
      u.consumed = s.consumed ++ [(x, y)] ∧ u.buffer = rest) ∧
    (∀ s, BReach s → ∀ p ∈ s.consumed, ∃ j, p = ((j, false), (j, true))) :=
  ⟨fun _ _ h hs => produce_blocked h hs,
   fun _ h hf => consume_blocked h hf,
   fun _ _ _ h1 h2 => produce_acquire1 h1 h2,
   fun _ _ _ h1 h2 => produce_acquire2 h1 h2,
   breach_mid_acquire,
   fun _ _ _ _ h1 h2 h3 => produce_appends_pair h1 h2 h3,
   fun _ _ _ _ _ _ h1 h2 h3 h4 => consume_returns_front h1 h2 h3 h4,
   fun _ h => (breach_inv h).2.2.2.2.1⟩

/-- C9: the consumer never pops an empty buffer — in every reachable state
the consumer thread is alive, and at its two pop sites the buffer holds at
least 2, respectively 1, elements; and had an empty pop ever been reached it
would kill the consumer thread (crash flag set, dead program counter, no
further consumer step) rather than continue silently. -/
theorem consume_never_pops_empty :
    (∀ s, BReach s → s.crashed = false) ∧
    (∀ s, BReach s → s.consPc = 3 → 2 ≤ s.buffer.length) ∧
    (∀ s, BReach s → s.consPc = 4 → 1 ≤ s.buffer.length) ∧
    (∀ s, s.consPc = 3 → s.buffer = [] →
      consumeStep s = some { s with crashed := true, consPc := 8 } ∧
      consumeStep { s with crashed := true, consPc := 8 } = none) := by
  refine ⟨fun _ h => (breach_inv h).2.2.2.2.2, ?_, ?_, ?_⟩
  · intro s h hc
    have hf := (breach_inv h).2.2.1
    unfold fullInv at hf
    rw [hc] at hf
    simp only [cFullHeld3] at hf
    omega
  · intro s h hc
    have hf := (breach_inv h).2.2.1
    unfold fullInv at hf
    rw [hc] at hf
    simp only [cFullHeld4] at hf
    omega
  · intro s hc hb
    constructor
    · simp only [consumeStep, hc, hb]
    · rfl

/-- C2: in the ordered demo (thread-1 `transfer_ordered(account1, account2,
100)`, thread-2 `transfer_ordered(account2, account1, 50)`, both balances
1000), every step strictly decreases the remaining-work measure — so every
run reaches a stuck state — and every reachable stuck state has both
transfers completed with balances exactly 950 and 1050. -/
theorem ordered_always_completes_with_exact_balances :
    (∀ s, OReach s → (∀ t, ¬ OStep s t) →
      s.pc1 = 5 ∧ s.pc2 = 5 ∧ s.b1 = 950 ∧ s.b2 = 1050) ∧
    (∀ s t, OStep s t → tmeas t < tmeas s) := by
  constructor
  · intro s hr hstuck
    have hmem := oreach_mem hr
    have h1 : ostep1 s = none := by
      cases h : ostep1 s with
      | none => rfl
      | some t => exact absurd (OStep.t1 h) (hstuck t)
    have h2 : ostep2 s = none := by
      cases h : ostep2 s with
      | none => rfl
      | some t => exact absurd (OStep.t2 h) (hstuck t)
    exact oStuckExact s hmem h1 h2
  · exact fun _ _ h => ostep_tmeas h

/-- C3: for any two distinct account ids, `transfer_ordered` acquires the
min-id lock first and the max-id lock second, mutates, and releases max then
min; and in the concrete driver the mutation keeps the original from/to
roles regardless of the acquisition order (thread-1 debits account 1,
thread-2 debits account 2). -/
theorem ordered_lock_order_min_max :
    (∀ f t : Nat, f ≠ t → transferOrderedOps f t =
      [AOp.acquire (min f t), AOp.acquire (max f t), AOp.mutate,
       AOp.release (max f t), AOp.release (min f t)]) ∧
    (∀ s u, s.pc1 = 2 → ostep1 s = some u →
      ((100 ≤ s.b1 ∧ u.b1 = s.b1 - 100 ∧ u.b2 = s.b2 + 100) ∨
       (s.b1 < 100 ∧ u.b1 = s.b1 ∧ u.b2 = s.b2))) ∧
    (∀ s u, s.pc2 = 2 → ostep2 s = some u →
      ((50 ≤ s.b2 ∧ u.b2 = s.b2 - 50 ∧ u.b1 = s.b1 + 50) ∨
       (s.b2 < 50 ∧ u.b1 = s.b1 ∧ u.b2 = s.b2))) := by
  refine ⟨?_, ?_, ?_⟩
  · intro f t hft
    unfold transferOrderedOps
    by_cases hlt : f < t
    · have h1 : min f t = f := min_eq_left (Nat.le_of_lt hlt)
      have h2 : max f t = t := max_eq_right (Nat.le_of_lt hlt)
      simp [hlt, h1, h2]
    · have htf : t < f := by omega
      have h1 : min f t = t := min_eq_right (Nat.le_of_lt htf)
      have h2 : max f t = f := max_eq_left (Nat.le_of_lt htf)
      simp [hlt, h1, h2]
  · intro s u hpc h
    simp only [ostep1, threadStep, transferOrderedOps, hpc, List.get?] at h
    simp only [execAOp, getBal, setBal] at h
    injection h with h'
    by_cases hb1 : (100:Int) ≤ s.b1
    · left
      refine ⟨hb1, ?_, ?_⟩
      · rw [← h']
        show (guardedMutation s.b1 s.b2 100).1.1 = s.b1 - 100
        simp [guardedMutation, hb1]
      · rw [← h']
        show (guardedMutation s.b1 s.b2 100).1.2 = s.b2 + 100
        simp [guardedMutation, hb1]
    · right
      refine ⟨by omega, ?_, ?_⟩
      · rw [← h']
        show (guardedMutation s.b1 s.b2 100).1.1 = s.b1
        simp [guardedMutation, hb1]
      · rw [← h']
        show (guardedMutation s.b1 s.b2 100).1.2 = s.b2
        simp [guardedMutation, hb1]
  · intro s u hpc h
    simp only [ostep2, threadStep, transferOrderedOps, hpc, List.get?] at h
    simp only [execAOp, getBal, setBal] at h
    injection h with h'
    by_cases hb2 : (50:Int) ≤ s.b2
    · left
      refine ⟨hb2, ?_, ?_⟩
      · rw [← h']
        show (guardedMutation s.b2 s.b1 50).1.1 = s.b2 - 50
        simp [guardedMutation, hb2]
      · rw [← h']
        show (guardedMutation s.b2 s.b1 50).1.2 = s.b1 + 50
        simp [guardedMutation, hb2]
    · right
      refine ⟨by omega, ?_, ?_⟩
      · rw [← h']
        show (guardedMutation s.b2 s.b1 50).1.2 = s.b1
        simp [guardedMutation, hb2]
      · rw [← h']
        show (guardedMutation s.b2 s.b1 50).1.1 = s.b2
        simp [guardedMutation, hb2]

/-- C4: the guarded mutation moves the amount and reports success exactly
when the source balance covers it, and otherwise changes nothing and reports
insufficient funds as a value; the mutation and release operations never
block or fail, the two programs end with the two releases in reverse
acquisition order after the unconditional mutate, and when both ordered
transfers have completed, both locks are free again. -/
theorem guarded_mutation_and_guaranteed_release :
    (∀ fb tb amt : Int, amt ≤ fb →
      guardedMutation fb tb amt = ((fb - amt, tb + amt), Outcome.success)) ∧
    (∀ fb tb amt : Int, fb < amt →
      guardedMutation fb tb amt = ((fb, tb), Outcome.insufficientFunds)) ∧
    (∀ (f t : Nat) (amt : Int) (s : TSt), (execAOp f t amt AOp.mutate s).isSome) ∧
    (∀ (f t : Nat) (amt : Int) (i : Nat) (s : TSt),
      (execAOp f t amt (AOp.release i) s).isSome) ∧
    (∀ f t : Nat, (transferOps f t).drop 3 = [AOp.release t, AOp.release f]) ∧
    (∀ f t : Nat, ∃ a b, transferOrderedOps f t =
      [AOp.acquire a, AOp.acquire b, AOp.mutate, AOp.release b, AOp.release a]) ∧
    (∀ s, OReach s → s.pc1 = 5 → s.pc2 = 5 → s.l1 = 1 ∧ s.l2 = 1) := by
  refine ⟨?_, ?_, ?_, ?_, ?_, ?_, ?_⟩
  · intro fb tb amt hle
    unfold guardedMutation
    rw [if_pos hle]
  · intro fb tb amt hlt
    unfold guardedMutation
    rw [if_neg (by omega)]
  · intro f t amt s
    simp [execAOp]
  · intro f t amt i s
    simp only [execAOp]
    split <;> rfl
  · intro f t
    rfl
  · intro f t
    exact ⟨_, _, rfl⟩
  · exact fun s hr h1 h2 => oDoneLocks s (oreach_mem hr) h1 h2

/-- C7: in the unordered demo, once each thread has acquired its first
(source) lock — a reachable situation, and any reachable state with both
program counters past exactly the first acquire is the circular-wait state —
no thread has an enabled step, and every state reachable from the
circular-wait state is that state itself, with both transfers forever
incomplete (the blocked acquires are parked waits, not failures). -/
theorem unordered_circular_wait_deadlock :
    (∀ s, UReach s → s.pc1 = 1 → s.pc2 = 1 →
      s = DeadSt ∧ ∀ t, ¬ UStep s t) ∧
    UReach DeadSt ∧
    (∀ s, Relation.ReflTransGen UStep DeadSt s →
      s = DeadSt ∧ s.pc1 = 1 ∧ s.pc2 = 1) := by
  refine ⟨?_, ureach_dead, ?_⟩
  · intro s hr h1 h2
    have hd := uDeadUnique s (ureach_mem hr) h1 h2
    subst hd
    exact ⟨rfl, udead_no_step⟩
  · intro s h
    have hd := udead_confined h
    subst hd
    exact ⟨rfl, rfl, rfl⟩

/-- C10: each single transfer operation conserves total money — the guarded
mutation preserves the sum of the two endpoint balances for every pair of
balances and every amount, in both branches, and consequently every step of
either demo preserves the sum of the two account balances. -/
theorem money_conserved_by_transfers :
    (∀ fb tb amt : Int,
      (guardedMutation fb tb amt).1.1 + (guardedMutation fb tb amt).1.2
        = fb + tb) ∧
    (∀ s t, OStep s t → t.b1 + t.b2 = s.b1 + s.b2) ∧
    (∀ s t, UStep s t → t.b1 + t.b2 = s.b1 + s.b2) := by
  refine ⟨guardedMutation_sum, ?_, ?_⟩
  · intro s t h
    cases h with
    | t1 h1 => exact ostep1_sum h1
    | t2 h2 => exact ostep2_sum h2
  · intro s t h
    cases h with
    | t1 h1 => exact ustep1_sum h1
    | t2 h2 => exact ustep2_sum h2

end OSYear
